import Mathlib

/-!
# Verification of the token-account usage aggregation engine

Shallow embedding of `web/src/utils/data.ts` (the usage aggregation and
derivation engine): model normalization, pricing resolution with alias
chains, range resolution, range-scoped statistics, cost estimation,
chart point compression, and multi-dataset merging.

Conventions of the embedding:
* JS numbers are modelled as `ℚ` (all values occurring here are exact);
  token counts and prices are rationals, array indices that may be `-1`
  are `ℤ`.
* JS objects used as string-keyed maps are association lists
  `List (String × _)` with first-match lookup and append-at-end insert,
  matching JS property insertion order.
* `arr[i] || 0` is modelled by `getD i 0` (with a guard for negative
  indices where an index can be negative).
* The alias walk of `resolvePricing` is a `while` loop in the source; it
  is embedded with an explicit fuel of `aliases.length + 1`, and the
  theorems for the termination claim show this fuel is always enough.
-/

namespace TokenAccount

/-! ## JS string primitives -/

/-- The character class `\s` of JS regular expressions (also the set
trimmed by `String.prototype.trim`). -/
def isJsWs (c : Char) : Bool :=
  c = ' ' || c = '\t' || c = '\n' || c = '\r' ||
  c.val = 0x0b || c.val = 0x0c || c.val = 0xa0 || c.val = 0x1680 ||
  (0x2000 ≤ c.val && c.val ≤ 0x200a) ||
  c.val = 0x2028 || c.val = 0x2029 || c.val = 0x202f || c.val = 0x205f ||
  c.val = 0x3000 || c.val = 0xfeff

/-- `String.prototype.trim`. -/
def jsTrim (cs : List Char) : List Char :=
  ((cs.dropWhile isJsWs).reverse.dropWhile isJsWs).reverse

/-- An opening parenthesis of the annotation regex: `[\(（]`. -/
def isOpenPar (c : Char) : Bool := c = '(' || c = '（'

/-- A closing parenthesis of the annotation regex: `[\)）]`. -/
def isClosePar (c : Char) : Bool := c = ')' || c = '）'

/-- Attempt to match the regex `\s*[\(（][^\)）]*[\)）]\s*` anchored at the
start of `cs`; on success return the characters after the match. -/
def matchParen (cs : List Char) : Option (List Char) :=
  match (cs.dropWhile isJsWs) with
  | [] => none
  | c :: rest =>
    if isOpenPar c then
      match rest.dropWhile (fun d => !isClosePar d) with
      | [] => none
      | _ :: rest2 => some (rest2.dropWhile isJsWs)
    else none

/-- One global-replace pass of `replace(/\s*[\(（][^\)）]*[\)）]\s*/g, " ")`,
scanning left to right, fuelled; each step consumes at least one input
character, so fuel `cs.length` is exact. -/
def replaceParensF : Nat → List Char → List Char
  | 0, cs => cs
  | fuel + 1, cs =>
    match matchParen cs with
    | some rest => ' ' :: replaceParensF fuel rest
    | none =>
      match cs with
      | [] => []
      | c :: rest => c :: replaceParensF fuel rest

/-- `replace(/\s*[\(（][^\)）]*[\)）]\s*/g, " ")`. -/
def replaceParens (cs : List Char) : List Char :=
  replaceParensF cs.length cs

/-- `replace(/\s+/g, " ")`, fuelled the same way. -/
def collapseWsF : Nat → List Char → List Char
  | 0, cs => cs
  | fuel + 1, cs =>
    match cs with
    | [] => []
    | c :: rest =>
      if isJsWs c then ' ' :: collapseWsF fuel (rest.dropWhile isJsWs)
      else c :: collapseWsF fuel rest

/-- `replace(/\s+/g, " ")`. -/
def collapseWs (cs : List Char) : List Char :=
  collapseWsF cs.length cs

/-- `hay.startsWith(pre)` on character lists. -/
def leadsWith : List Char → List Char → Bool
  | _, [] => true
  | [], _ :: _ => false
  | h :: hs, p :: ps => h = p && leadsWith hs ps

/-- `hay.includes(sub)` on character lists. -/
def containsSeq : List Char → List Char → Bool
  | hay, sub =>
    leadsWith hay sub ||
      match hay with
      | [] => false
      | _ :: hs => containsSeq hs sub

/-- `s.startsWith(t)` for strings. -/
def strStartsWith (s t : String) : Bool := leadsWith s.data t.data

/-- `s.includes(t)` for strings. -/
def strIncludes (s t : String) : Bool := containsSeq s.data t.data

/-! ## `normalizeModelName` -/

/-- `normalizeModelName` from `data.ts`: trim; empty becomes `"unknown"`;
split at the first `:`; the head has parenthetical annotations replaced
by a space, whitespace collapsed and is trimmed (empty head becomes
`"unknown"`); the part after the first `:` is trimmed and, when
non-empty, reattached after a `:`. -/
def normalizeModelName (model : String) : String :=
  let raw := jsTrim model.data
  if raw.isEmpty then "unknown"
  else
    let head := raw.takeWhile (fun c => c ≠ ':')
    let rest := raw.dropWhile (fun c => c ≠ ':')
    let cleanHead := jsTrim (collapseWs (replaceParens head))
    let base := if cleanHead.isEmpty then "unknown".data else cleanHead
    let suffix := jsTrim rest.tail
    if suffix.isEmpty then base.asString
    else (base ++ ':' :: suffix).asString

/-! ## Pricing book, alias walk, `resolvePricing`, `costUSD` -/

/-- One entry of the price table (`PricingEntry` in `report.ts`);
rates are USD per one million tokens. -/
structure PricingEntry where
  input : ℚ
  cached_input : Option ℚ
  output : ℚ
  deriving DecidableEq, Repr

/-- `PricingBook` from `report.ts`; both fields are JS objects, modelled
as association lists in property insertion order. -/
structure PricingBook where
  prices : List (String × PricingEntry)
  aliases : List (String × String)
  deriving DecidableEq, Repr

/-- First-match lookup in an association list (`obj[key]`). -/
def lookupStr (k : String) : List (String × α) → Option α
  | [] => none
  | p :: rest => if p.1 = k then some p.2 else lookupStr k rest

/-- `aliases[cursor]` is used in a truthiness test, so a mapped value
that is the empty string counts as "no alias". -/
def hasAlias (aliases : List (String × String)) (name : String) : Bool :=
  match lookupStr name aliases with
  | some v => v ≠ ""
  | none => false

/-- The `deAlias` while-loop of `resolvePricing`, fuelled: replace the
cursor by its alias while it has a (truthy) alias and has not been
visited; also returns the visited set. -/
def deAliasGo (aliases : List (String × String)) :
    Nat → List String → String → String × List String
  | 0, seen, cursor => (cursor, seen)
  | fuel + 1, seen, cursor =>
    match lookupStr cursor aliases with
    | some v =>
      if v ≠ "" ∧ cursor ∉ seen then deAliasGo aliases fuel (cursor :: seen) v
      else (cursor, seen)
    | none => (cursor, seen)

/-- The alias walk together with its visited set; fuel
`aliases.length + 1` is shown sufficient in the theorems below. -/
def deAliasFull (aliases : List (String × String)) (value : String) :
    String × List String :=
  deAliasGo aliases (aliases.length + 1) [] value

/-- `deAlias` from `resolvePricing`. -/
def deAlias (aliases : List (String × String)) (value : String) : String :=
  (deAliasFull aliases value).1

/-- `resolvePricing` from `data.ts`: exact de-aliased match, then
de-aliased base name (before `:`), then any price key `K` with the base
starting with `K + "-"`, then the literal gpt-5 minor-version fallback
ladder; otherwise no price. -/
def resolvePricing (model : String) (pricing : PricingBook) : Option PricingEntry :=
  let prices := pricing.prices
  let aliases := pricing.aliases
  let normalized := deAlias aliases (normalizeModelName model)
  match lookupStr normalized prices with
  | some e => some e
  | none =>
    let base := deAlias aliases ((normalized.data.takeWhile (fun c => c ≠ ':')).asString)
    match lookupStr base prices with
    | some e => some e
    | none =>
      match prices.find? (fun kv => strStartsWith base (kv.1 ++ "-")) with
      | some kv => some kv.2
      | none =>
        if strIncludes base "gpt-5.3" then
          match lookupStr "gpt-5.2" prices with
          | some e => some e
          | none => lookupStr "gpt-5" prices
        else if strIncludes base "gpt-5.2" then lookupStr "gpt-5.2" prices
        else if strIncludes base "gpt-5.1" then lookupStr "gpt-5.1" prices
        else if strStartsWith base "gpt-5" then lookupStr "gpt-5" prices
        else none

/-- `ModelTokenBreakdown` from `report.ts`. -/
structure ModelTokenBreakdown where
  input_tokens : ℚ
  cached_input_tokens : ℚ
  output_tokens : ℚ
  reasoning_output_tokens : ℚ
  total_tokens : ℚ
  deriving DecidableEq, Repr

/-- `Math.max` on two rationals (kernel-reducible form). -/
def jsMax (a b : ℚ) : ℚ := if a ≤ b then b else a

/-- `costUSD` from `data.ts`. -/
def costUSD (rec : ModelTokenBreakdown) (pricingEntry : Option PricingEntry) :
    Option ℚ :=
  match pricingEntry with
  | none => none
  | some entry =>
    let cachedPrice := entry.cached_input.getD entry.input
    let billableInput := jsMax 0 (rec.input_tokens - rec.cached_input_tokens)
    let outputTotal := rec.output_tokens + rec.reasoning_output_tokens
    some (billableInput / 1000000 * entry.input +
      rec.cached_input_tokens / 1000000 * cachedPrice +
      outputTotal / 1000000 * entry.output)

/-! ## Report data model (`report.ts`) -/

/-- `RangeInfo`. The `end` field is renamed `end_` (`end` is a Lean
keyword). -/
structure RangeInfo where
  start : String
  end_ : String
  days : Nat
  deriving DecidableEq, Repr

/-- `DailySeries`. -/
structure DailySeries where
  labels : List String
  total : List ℚ
  input : List ℚ
  output : List ℚ
  reasoning : List ℚ
  cached : List ℚ
  deriving DecidableEq, Repr

/-- `HourlySeries`. -/
structure HourlySeries where
  labels : List String
  total : List ℚ
  deriving DecidableEq, Repr

/-- `SessionSpan`; the `end` field is renamed `end_`. -/
structure SessionSpan where
  start : String
  end_ : String
  deriving DecidableEq, Repr

/-- `UsageEvent` (opaque to the engine beyond concatenation). -/
structure UsageEvent where
  ts : String
  day : String
  value : ℚ
  input : ℚ
  cached : ℚ
  output : ℚ
  reasoning : ℚ
  total : ℚ
  deriving DecidableEq, Repr

/-- `ReportMeta`. -/
structure ReportMeta where
  generated_at : String
  source_path : String
  deriving DecidableEq, Repr

/-- `ReportData`. -/
structure ReportData where
  range : RangeInfo
  daily : DailySeries
  hourly : Option HourlySeries
  hourly_daily : List (String × List ℚ)
  daily_models : List (String × List (String × ModelTokenBreakdown))
  session_spans : List SessionSpan
  events : List UsageEvent
  pricing : PricingBook
  meta : Option ReportMeta
  deriving DecidableEq, Repr

/-- `ComputedStats`; token sums and `cacheRate` are rationals, the two
rounded averages are integers, `estimatedCost` is nullable. -/
structure ComputedStats where
  totalTokens : ℚ
  inputTokens : ℚ
  outputTokens : ℚ
  cachedTokens : ℚ
  reasoningTokens : ℚ
  cacheRate : ℚ
  sessions : Nat
  activeDays : Nat
  avgPerDay : ℤ
  avgPerSession : ℤ
  estimatedCost : Option ℚ
  deriving DecidableEq, Repr

/-- `RangedView`; indices are integers because the explicitly empty view
carries `endIndex = -1`. -/
structure RangedView where
  startISO : String
  endISO : String
  labels : List String
  startIndex : ℤ
  endIndex : ℤ
  deriving DecidableEq, Repr

/-! ## Range resolver -/

/-- Index of the first element satisfying `p` (`Array.prototype.findIndex`
and, with an equality predicate, `indexOf`). -/
def firstIdx (p : α → Bool) : List α → Option Nat
  | [] => none
  | x :: xs => if p x then some 0 else (firstIdx p xs).map (· + 1)

/-- Index of the last label `≤ iso` (the backward loop of
`resolveIndex`). -/
def lastIdxLe (labels : List String) (iso : String) : Option Nat :=
  match firstIdx (fun l => l ≤ iso) labels.reverse with
  | some j => some (labels.length - 1 - j)
  | none => none

/-- `resolveIndex` from `data.ts`: exact match first; on the start side
the first label `≥ iso`, defaulting to `0`; on the end side the last
label `≤ iso`, defaulting to `length - 1`. -/
def resolveIndex (labels : List String) (iso : String) (startSide : Bool) : ℤ :=
  match firstIdx (fun l => l = iso) labels with
  | some exact => (exact : ℤ)
  | none =>
    if startSide then
      match firstIdx (fun l => iso ≤ l) labels with
      | some idx => (idx : ℤ)
      | none => 0
    else
      match lastIdxLe labels iso with
      | some idx => (idx : ℤ)
      | none => (labels.length : ℤ) - 1

/-- `Math.max` on two integers (kernel-reducible form). -/
def intMax (a b : ℤ) : ℤ := if a ≤ b then b else a

/-- `Math.min` on two integers (kernel-reducible form). -/
def intMin (a b : ℤ) : ℤ := if a ≤ b then a else b

/-- `labels.slice(a, b)` for `0 ≤ a ≤ b` (used with in-range indices). -/
def listSlice (labels : List String) (a b : ℤ) : List String :=
  (labels.drop a.toNat).take (b - a).toNat

/-- `calcRangedView` from `data.ts`. -/
def calcRangedView (data : ReportData) (startISO endISO : String) : RangedView :=
  let labels := data.daily.labels
  if labels.isEmpty then
    { startISO := startISO, endISO := endISO, labels := [],
      startIndex := 0, endIndex := -1 }
  else
    let s := if endISO < startISO then endISO else startISO
    let e := if endISO < startISO then startISO else endISO
    let startIndex := resolveIndex labels s true
    let endIndex := resolveIndex labels e false
    let safeStart := intMax 0 (intMin startIndex ((labels.length : ℤ) - 1))
    let safeEnd := intMax 0 (intMin endIndex ((labels.length : ℤ) - 1))
    let finalStart := intMin safeStart safeEnd
    let finalEnd := intMax safeStart safeEnd
    { startISO := labels.getD finalStart.toNat "",
      endISO := labels.getD finalEnd.toNat "",
      labels := listSlice labels finalStart (finalEnd + 1),
      startIndex := finalStart,
      endIndex := finalEnd }

/-! ## Stats aggregator -/

/-- `values[i] || 0` where `i` may be any integer. -/
def elemAt (values : List ℚ) (i : ℤ) : ℚ :=
  if 0 ≤ i then values.getD i.toNat 0 else 0

/-- `sumRange` from `data.ts`: the loop `for (i = start; i <= stop; i++)`
accumulating `values[i] || 0`. -/
def sumRange (values : List ℚ) (start stop : ℤ) : ℚ :=
  (List.range (stop + 1 - start).toNat).foldl
    (fun acc (k : Nat) => acc + elemAt values (start + (k : ℤ))) 0

/-- `countActive` from `data.ts`: the same loop counting entries `> 0`. -/
def countActive (values : List ℚ) (start stop : ℤ) : Nat :=
  (List.range (stop + 1 - start).toNat).foldl
    (fun count (k : Nat) =>
      if 0 < elemAt values (start + (k : ℤ)) then count + 1 else count) 0

/-- `overlapSessions` from `data.ts`: count spans with
`span.start <= endISO && span.end >= startISO`. -/
def overlapSessions (spans : List SessionSpan) (startISO endISO : String) : Nat :=
  spans.foldl
    (fun count span =>
      if span.start ≤ endISO ∧ startISO ≤ span.end_ then count + 1 else count) 0

/-- `Math.round` (round half toward positive infinity). -/
def jsRound (q : ℚ) : ℤ := ⌊q + 1 / 2⌋

/-- Upsert into an association list: add `v` (with `f`) to the entry at
`k`, or append `f z v` for an absent key (JS zero-initialise then add). -/
def upsertWith (f : α → α → α) (z : α) : List (String × α) → String → α → List (String × α)
  | [], k, v => [(k, f z v)]
  | p :: rest, k, v =>
    if p.1 = k then (p.1, f p.2 v) :: rest
    else p :: upsertWith f z rest k v

/-- Field-wise sum of two token breakdowns (the `+=` block shared by
`aggregateModels` and `mergeDailyModels`). -/
def addBreakdown (a b : ModelTokenBreakdown) : ModelTokenBreakdown :=
  ⟨a.input_tokens + b.input_tokens,
   a.cached_input_tokens + b.cached_input_tokens,
   a.output_tokens + b.output_tokens,
   a.reasoning_output_tokens + b.reasoning_output_tokens,
   a.total_tokens + b.total_tokens⟩

/-- The all-zero token breakdown. -/
def zeroBreakdown : ModelTokenBreakdown := ⟨0, 0, 0, 0, 0⟩

/-- `aggregateModels` from `data.ts`: for each in-view day, add every
model record of `daily_models[day]` into a per-normalized-model
accumulator. -/
def aggregateModels (data : ReportData) (labels : List String) :
    List (String × ModelTokenBreakdown) :=
  labels.foldl
    (fun out day =>
      ((lookupStr day data.daily_models).getD []).foldl
        (fun out2 q => upsertWith addBreakdown zeroBreakdown out2 (normalizeModelName q.1) q.2)
        out)
    []

/-- The cost accumulation loop of `computeStats`: running total of the
priced models and whether any model was priced. -/
def costFold (pricing : PricingBook) (modelTotals : List (String × ModelTokenBreakdown)) :
    ℚ × Bool :=
  modelTotals.foldl
    (fun acc p =>
      match costUSD p.2 (resolvePricing p.1 pricing) with
      | some c => (acc.1 + c, true)
      | none => acc)
    (0, false)

/-- `computeStats` from `data.ts`. -/
def computeStats (data : ReportData) (view : RangedView) : ComputedStats :=
  if view.endIndex < view.startIndex then
    { totalTokens := 0, inputTokens := 0, outputTokens := 0, cachedTokens := 0,
      reasoningTokens := 0, cacheRate := 0, sessions := 0, activeDays := 0,
      avgPerDay := 0, avgPerSession := 0, estimatedCost := none }
  else
    let totalTokens := sumRange data.daily.total view.startIndex view.endIndex
    let inputTokens := sumRange data.daily.input view.startIndex view.endIndex
    let outputTokens := sumRange data.daily.output view.startIndex view.endIndex
    let cachedTokens := sumRange data.daily.cached view.startIndex view.endIndex
    let reasoningTokens := sumRange data.daily.reasoning view.startIndex view.endIndex
    let activeDays := countActive data.daily.total view.startIndex view.endIndex
    let sessions := overlapSessions data.session_spans view.startISO view.endISO
    let avgPerDay : ℤ := if 0 < activeDays then jsRound (totalTokens / (activeDays : ℚ)) else 0
    let avgPerSession : ℤ := if 0 < sessions then jsRound (totalTokens / (sessions : ℚ)) else 0
    let cacheRate := if 0 < inputTokens then cachedTokens / inputTokens else 0
    let folded := costFold data.pricing (aggregateModels data view.labels)
    { totalTokens := totalTokens, inputTokens := inputTokens,
      outputTokens := outputTokens, cachedTokens := cachedTokens,
      reasoningTokens := reasoningTokens, cacheRate := cacheRate,
      sessions := sessions, activeDays := activeDays,
      avgPerDay := avgPerDay, avgPerSession := avgPerSession,
      estimatedCost := if folded.2 then some folded.1 else none }

/-! ## Chart series builder -/

/-- `ChartPoint`. -/
structure ChartPoint where
  label : String
  tokens : ℚ
  deriving DecidableEq, Repr

/-- Partition a list into contiguous chunks of size `b + 1` (the
`for (i = 0; i < n; i += bucketSize)` slicing of `compressPoints`,
with `bucketSize = b + 1`). -/
def chunksB (b : Nat) : List α → List (List α)
  | [] => []
  | x :: xs => (x :: xs.take b) :: chunksB b (xs.drop b)
  termination_by l => l.length
  decreasing_by simp only [List.length_drop, List.length_cons]; omega

/-- One bucket of `compressPoints`: summed tokens, labelled by
`slice[slice.length - 1]?.label || points[i].label` — the last point's
label, except that an empty (falsy) last label falls back to the
bucket's first point's label (`points[i]` is the bucket's start, and
buckets are non-empty slices, so `points[i]` is the slice's head). -/
def bucketOf (slice : List ChartPoint) : ChartPoint :=
  let lastLabel := (slice.getLastD ⟨"", 0⟩).label
  { label := if lastLabel = "" then (slice.headD ⟨"", 0⟩).label else lastLabel,
    tokens := slice.foldl (fun acc item => acc + item.tokens) 0 }

/-- `compressPoints` from `data.ts`. `bucketSize` is
`Math.ceil(points.length / maxPoints)`; the `chunksB` argument is
`bucketSize - 1`, which matches the source whenever `maxPoints ≥ 1`
(for `maxPoints = 0` the source loop would not terminate). -/
def compressPoints (points : List ChartPoint) (maxPoints : Nat) : List ChartPoint :=
  if points.length ≤ maxPoints then points
  else
    let bucketSize := (points.length + maxPoints - 1) / maxPoints
    (chunksB (bucketSize - 1) points).map bucketOf

/-- Total token mass of a point list. -/
def sumTokens (points : List ChartPoint) : ℚ :=
  points.foldl (fun acc item => acc + item.tokens) 0

/-- The bucket shape asserted by the original claim C9: summed tokens,
always labelled with the bucket's last point's label, with no
empty-label fallback (this is what `compressPoints` would produce if
line 267 read `slice[slice.length - 1]?.label` alone). -/
def lastLabelBucket (slice : List ChartPoint) : ChartPoint :=
  { label := (slice.getLastD ⟨"", 0⟩).label,
    tokens := slice.foldl (fun acc item => acc + item.tokens) 0 }

/-! ## Dataset merger -/

/-- The per-day accumulator record of `mergeReportData` (one value of
`dayMap`): the five daily series of one day. -/
structure DayRec where
  total : ℚ
  input : ℚ
  output : ℚ
  reasoning : ℚ
  cached : ℚ
  deriving DecidableEq, Repr

/-- Field-wise sum of two day records (the `+=` block of `mergeDayMap`). -/
def DayRec.add (a b : DayRec) : DayRec :=
  ⟨a.total + b.total, a.input + b.input, a.output + b.output,
    a.reasoning + b.reasoning, a.cached + b.cached⟩

/-- The all-zero day record (the initialisation of a fresh `dayMap` key). -/
def DayRec.zero : DayRec := ⟨0, 0, 0, 0, 0⟩

instance : Zero DayRec := ⟨DayRec.zero⟩

instance : Add DayRec := ⟨DayRec.add⟩

instance : AddCommMonoid DayRec where
  add_assoc a b c := by
    show DayRec.add (DayRec.add a b) c = DayRec.add a (DayRec.add b c)
    simp [DayRec.add, add_assoc]
  zero_add a := by
    show DayRec.add DayRec.zero a = a
    cases a
    simp [DayRec.add, DayRec.zero]
  add_zero a := by
    show DayRec.add a DayRec.zero = a
    cases a
    simp [DayRec.add, DayRec.zero]
  add_comm a b := by
    show DayRec.add a b = DayRec.add b a
    simp [DayRec.add, add_comm]
  nsmul := nsmulRec

/-- The values of a daily-series block at index `i`
(`daily.<series>[i] || 0`). -/
def dayAtD (ds : DailySeries) (i : Nat) : DayRec :=
  ⟨ds.total.getD i 0, ds.input.getD i 0, ds.output.getD i 0,
   ds.reasoning.getD i 0, ds.cached.getD i 0⟩

/-- Pair every element with its index, starting at `n`. -/
def enumIdx (n : Nat) : List α → List (Nat × α)
  | [] => []
  | x :: xs => (n, x) :: enumIdx (n + 1) xs

/-- The `(day, values)` pairs contributed by one dataset to the merge
accumulator, in label order. -/
def pairsOf (data : ReportData) : List (String × DayRec) :=
  (enumIdx 0 data.daily.labels).map (fun p => (p.2, dayAtD data.daily p.1))

/-- Upsert-add for the day accumulator. -/
def upsertAdd (m : List (String × DayRec)) (k : String) (v : DayRec) :
    List (String × DayRec) :=
  upsertWith (· + ·) 0 m k v

/-- `mergeDayMap` from `data.ts`: add one dataset's five per-day values
into the accumulator, keyed by day label. -/
def mergeDayMap (dayMap : List (String × DayRec)) (data : ReportData) :
    List (String × DayRec) :=
  (pairsOf data).foldl (fun m p => upsertAdd m p.1 p.2) dayMap

/-- Day-level then model-level upsert used by `mergeDailyModels`. -/
def upsertDayModel (target : List (String × List (String × ModelTokenBreakdown)))
    (day key : String) (rec : ModelTokenBreakdown) :
    List (String × List (String × ModelTokenBreakdown)) :=
  match target with
  | [] => [(day, upsertWith addBreakdown zeroBreakdown [] key rec)]
  | p :: rest =>
    if p.1 = day then (p.1, upsertWith addBreakdown zeroBreakdown p.2 key rec) :: rest
    else p :: upsertDayModel rest day key rec

/-- `mergeDailyModels` from `data.ts`. -/
def mergeDailyModels (target : List (String × List (String × ModelTokenBreakdown)))
    (data : ReportData) : List (String × List (String × ModelTokenBreakdown)) :=
  data.daily_models.foldl
    (fun t p =>
      p.2.foldl (fun t2 q => upsertDayModel t2 p.1 (normalizeModelName q.1) q.2) t)
    target

/-- Element-wise sum of two hourly arrays, normalised to 24 entries
(`target[day][i] += hours[i] || 0` over a 24-slot array). -/
def addHours (old hours : List ℚ) : List ℚ :=
  (List.range 24).map (fun i => old.getD i 0 + hours.getD i 0)

/-- Upsert for `hourly_daily`: a fresh day starts as 24 zeros. -/
def upsertHours (m : List (String × List ℚ)) (k : String) (hours : List ℚ) :
    List (String × List ℚ) :=
  match m with
  | [] => [(k, addHours (List.replicate 24 0) hours)]
  | p :: rest =>
    if p.1 = k then (p.1, addHours p.2 hours) :: rest
    else p :: upsertHours rest k hours

/-- `mergeHourlyDaily` from `data.ts`. -/
def mergeHourlyDaily (target : List (String × List ℚ)) (data : ReportData) :
    List (String × List ℚ) :=
  data.hourly_daily.foldl (fun m p => upsertHours m p.1 p.2) target

/-- The keys of an association list, in insertion order. -/
def keysOf (m : List (String × α)) : List String := m.map Prod.fst

/-- Lookup with a zero default. -/
def lookupD [Zero α] (m : List (String × α)) (k : String) : α :=
  (lookupStr k m).getD 0

/-- The merged day accumulator of a list of (already filtered) datasets. -/
def mergedDayMap (valid : List ReportData) : List (String × DayRec) :=
  valid.foldl mergeDayMap []

/-- Assemble the merged `daily` block from the accumulator:
sorted labels and the five parallel series read back from the map. -/
def assembleDaily (dayMap : List (String × DayRec)) : DailySeries :=
  let labels := List.insertionSort (· ≤ ·) (keysOf dayMap)
  { labels := labels,
    total := labels.map (fun d => (lookupD dayMap d).total),
    input := labels.map (fun d => (lookupD dayMap d).input),
    output := labels.map (fun d => (lookupD dayMap d).output),
    reasoning := labels.map (fun d => (lookupD dayMap d).reasoning),
    cached := labels.map (fun d => (lookupD dayMap d).cached) }

/-- The recomputed by-hour totals (element-wise sum of all per-day
hourly arrays). -/
def hourlyTotalOf (hourlyDaily : List (String × List ℚ)) : List ℚ :=
  hourlyDaily.foldl (fun acc p => addHours acc p.2) (List.replicate 24 0)

/-- `String(idx).padStart(2, "0")` for `idx < 100`. -/
def twoDigit (idx : Nat) : String :=
  if idx < 10 then "0" ++ toString idx else toString idx

/-- `mergeReportData` from `data.ts`. -/
def mergeReportData (datasets : List ReportData) : Option ReportData :=
  let valid := datasets.filter (fun item => !item.daily.labels.isEmpty)
  if valid.isEmpty then none
  else
    let dayMap := mergedDayMap valid
    let dailyModels := valid.foldl mergeDailyModels []
    let hourlyDaily := valid.foldl mergeHourlyDaily []
    let sessionSpans := valid.foldl (fun acc d => acc ++ d.session_spans) []
    let events := valid.foldl (fun acc d => acc ++ d.events) []
    let daily := assembleDaily dayMap
    let labels := daily.labels
    if labels.isEmpty then none
    else
      let basePricing := ((valid.head?).map (fun d => d.pricing)).getD ⟨[], []⟩
      let baseMeta := (valid.filterMap (fun d => d.meta)).head?
      some
        { range := ⟨labels.headD "", labels.getLastD "", labels.length⟩,
          daily := daily,
          hourly := some ⟨(List.range 24).map twoDigit, hourlyTotalOf hourlyDaily⟩,
          hourly_daily := hourlyDaily,
          daily_models := dailyModels,
          session_spans := sessionSpans,
          events := events,
          pricing := basePricing,
          meta := baseMeta }

/-! ## Spec-side definitions

These definitions follow the wording of the specification (and of the
claims) rather than the source; the theorems relate them to the source
embedding above. -/

/-- First non-`none` element of a list of options ("first hit wins"). -/
def firstSome : List (Option α) → Option α
  | [] => none
  | o :: rest => o.orElse (fun _ => firstSome rest)

/-- The literal gpt-5 minor-version fallback ladder of the spec
(§4.3 step 4): an unmatched `gpt-5.3` falls back to `gpt-5.2` and then
to bare `gpt-5`; `gpt-5.2` and `gpt-5.1` only to themselves; any other
`gpt-5…` name to bare `gpt-5`. -/
def gpt5Ladder (base : String) (prices : List (String × PricingEntry)) :
    Option PricingEntry :=
  if strIncludes base "gpt-5.3" then
    match lookupStr "gpt-5.2" prices with
    | some e => some e
    | none => lookupStr "gpt-5" prices
  else if strIncludes base "gpt-5.2" then lookupStr "gpt-5.2" prices
  else if strIncludes base "gpt-5.1" then lookupStr "gpt-5.1" prices
  else if strStartsWith base "gpt-5" then lookupStr "gpt-5" prices
  else none

/-- Normalization as the amended claim describes it: trim whitespace,
`"unknown"` when the trimmed name is empty; split at the first `:`; in
the head strip parenthetical annotations and collapse whitespace (an
empty head becomes `"unknown"`); trim the remainder and reattach it
after a `:` separator when it is non-empty. -/
def normalizeModelNameSpec (model : String) : String :=
  let trimmed := jsTrim model.data
  if trimmed.isEmpty then "unknown"
  else
    let headPart := trimmed.takeWhile (fun c => c ≠ ':')
    let remainder := (trimmed.dropWhile (fun c => c ≠ ':')).tail
    let normalizedHead := jsTrim (collapseWs (replaceParens headPart))
    let headName := if normalizedHead.isEmpty then "unknown".data else normalizedHead
    let trimmedRemainder := jsTrim remainder
    if trimmedRemainder.isEmpty then headName.asString
    else (headName ++ ':' :: trimmedRemainder).asString

/-- The per-day totals of a daily-series block, keyed by day label: the
values at the first occurrence of the label, `0` for an absent label. -/
def seriesAtD (ds : DailySeries) (d : String) : DayRec :=
  match firstIdx (fun l => l = d) ds.labels with
  | some i => dayAtD ds i
  | none => 0

/-- Per-day totals of a possibly absent merge result. -/
def mergedTotals (o : Option ReportData) (d : String) : DayRec :=
  match o with
  | none => 0
  | some r => seriesAtD r.daily d

/-- Label sequence of a possibly absent merge result. -/
def mergedLabels (o : Option ReportData) : List String :=
  match o with
  | none => []
  | some r => r.daily.labels

/-- Total token mass of a point list as a mapped sum (claim side). -/
def sumTokensSpec (points : List ChartPoint) : ℚ :=
  (points.map (fun p => p.tokens)).sum

/-- Number of distinct alias keys not yet visited (the termination
measure of the alias walk). -/
def unseenKeys (aliases : List (String × String)) (seen : List String) : Nat :=
  (((keysOf aliases).dedup).filter (fun k => !seen.contains k)).length

/-- An all-empty report (used only as a dummy default for `Option.getD`
in closed witnesses). -/
def emptyReport : ReportData :=
  ⟨⟨"", "", 0⟩, ⟨[], [], [], [], [], []⟩, none, [], [], [], [], ⟨[], []⟩, none⟩

/-! ## Concrete fixtures for closed witnesses -/

/-- A small two-day report. -/
def fixData : ReportData :=
  { range := ⟨"2026-02-01", "2026-02-02", 2⟩,
    daily := ⟨["2026-02-01", "2026-02-02"], [100, 50], [60, 30], [40, 20], [10, 5], [20, 8]⟩,
    hourly := none,
    hourly_daily := [],
    daily_models := [("2026-02-01", [("m", ⟨60, 20, 40, 10, 100⟩)])],
    session_spans := [⟨"2026-02-01T00:00:00", "2026-02-01T01:00:00"⟩],
    events := [],
    pricing := ⟨[("m", ⟨2, some (1 / 2), 8⟩)], []⟩,
    meta := none }

/-- A full-range view over `fixData`. -/
def fixView : RangedView :=
  ⟨"2026-02-01", "2026-02-02", ["2026-02-01", "2026-02-02"], 0, 1⟩

/-- An explicitly empty view. -/
def fixViewEmpty : RangedView := ⟨"2026-02-02", "2026-02-01", [], 0, -1⟩

/-- A one-day report whose only model is priced at zero rates. -/
def zeroRateData : ReportData :=
  { range := ⟨"2026-03-01", "2026-03-01", 1⟩,
    daily := ⟨["2026-03-01"], [3], [1], [1], [0], [1]⟩,
    hourly := none,
    hourly_daily := [],
    daily_models := [("2026-03-01", [("m", ⟨1, 1, 1, 0, 3⟩)])],
    session_spans := [],
    events := [],
    pricing := ⟨[("m", ⟨0, none, 0⟩)], []⟩,
    meta := none }

/-- The one-day view over `zeroRateData`. -/
def zeroRateView : RangedView := ⟨"2026-03-01", "2026-03-01", ["2026-03-01"], 0, 0⟩

/-- A small point list for the compression witness. -/
def fixPoints : List ChartPoint := [⟨"p1", 1⟩, ⟨"p2", 2⟩, ⟨"p3", 4⟩]

/-! # Theorems -/

/-! ## General accumulation lemmas -/

theorem jsMax_eq_max (a b : ℚ) : jsMax a b = max a b := by
  unfold jsMax
  rcases le_total a b with h | h
  · rw [if_pos h, max_eq_right h]
  · rcases eq_or_lt_of_le h with h2 | h2
    · simp [h2]
    · rw [if_neg (not_le.mpr h2), max_eq_left h]

theorem foldl_add_eq {M : Type} [AddCommMonoid M] (f : α → M) (l : List α) (c : M) :
    l.foldl (fun acc x => acc + f x) c = c + (l.map f).sum := by
  induction l generalizing c with
  | nil => simp
  | cons x xs ih => simp [ih, add_assoc]

theorem listRangeSum {M : Type} [AddCommMonoid M] (f : Nat → M) (n : Nat) :
    ((List.range n).map f).sum = ∑ i ∈ Finset.range n, f i := by
  induction n with
  | zero => simp
  | succ n ih => simp [List.range_succ, Finset.sum_range_succ, ih]

theorem Icc_int_succ_top (s t : ℤ) (h : s ≤ t + 1) :
    Finset.Icc s (t + 1) = insert (t + 1) (Finset.Icc s t) := by
  ext i
  simp only [Finset.mem_Icc, Finset.mem_insert]
  omega

theorem rangeShift {M : Type} [AddCommMonoid M] (f : ℤ → M) (s : ℤ) (n : Nat) :
    (∑ k ∈ Finset.range n, f (s + k)) = ∑ i ∈ Finset.Icc s (s + n - 1), f i := by
  induction n with
  | zero =>
    rw [Finset.range_zero, Finset.sum_empty, Finset.Icc_eq_empty (by omega), Finset.sum_empty]
  | succ n ih =>
    have h1 : s + (n + 1 : ℕ) - 1 = (s + n - 1) + 1 := by push_cast; ring
    rw [Finset.sum_range_succ, ih, h1, Icc_int_succ_top s (s + n - 1) (by omega),
      Finset.sum_insert (by simp [Finset.mem_Icc])]
    have h2 : s + n - 1 + 1 = s + (n : ℤ) := by ring
    rw [h2, add_comm]

theorem sumRange_eq (values : List ℚ) (s e : ℤ) :
    sumRange values s e = ∑ i ∈ Finset.Icc s e, elemAt values i := by
  unfold sumRange
  rw [foldl_add_eq, zero_add, listRangeSum]
  by_cases h : s ≤ e
  · have hb : s + (((e + 1 - s).toNat : ℤ)) - 1 = e := by omega
    rw [rangeShift, hb]
  · have hn : (e + 1 - s).toNat = 0 := by omega
    rw [hn, Finset.range_zero, Finset.sum_empty, Finset.Icc_eq_empty (by omega),
      Finset.sum_empty]

theorem countActive_go (values : List ℚ) (s : ℤ) (l : List Nat) (c : Nat) :
    l.foldl
        (fun count (k : Nat) =>
          if 0 < elemAt values (s + (k : ℤ)) then count + 1 else count) c =
      c + ((l.map (fun (k : Nat) =>
        if 0 < elemAt values (s + (k : ℤ)) then (1 : ℕ) else 0)).sum) := by
  induction l generalizing c with
  | nil => simp
  | cons x xs ih =>
    rw [List.foldl_cons, List.map_cons, List.sum_cons]
    by_cases h : 0 < elemAt values (s + (x : ℤ))
    · rw [if_pos h, if_pos h, ih]
      omega
    · rw [if_neg h, if_neg h, ih]
      omega

theorem countActive_eq (values : List ℚ) (s e : ℤ) :
    countActive values s e =
      ((Finset.Icc s e).filter (fun i => 0 < elemAt values i)).card := by
  unfold countActive
  rw [countActive_go, Nat.zero_add, listRangeSum, Finset.card_filter]
  by_cases h : s ≤ e
  · have hb : s + (((e + 1 - s).toNat : ℤ)) - 1 = e := by omega
    rw [rangeShift (fun i => if 0 < elemAt values i then (1 : ℕ) else 0), hb]
  · have hn : (e + 1 - s).toNat = 0 := by omega
    rw [hn, Finset.range_zero, Finset.sum_empty, Finset.Icc_eq_empty (by omega),
      Finset.sum_empty]

theorem overlapSessions_go (a b : String) (spans : List SessionSpan) (n : Nat) :
    spans.foldl
        (fun count span =>
          if span.start ≤ b ∧ a ≤ span.end_ then count + 1 else count) n =
      n + (spans.filter (fun sp => decide (sp.start ≤ b ∧ a ≤ sp.end_))).length := by
  induction spans generalizing n with
  | nil => simp
  | cons sp rest ih =>
    rw [List.foldl_cons, List.filter_cons]
    simp only [decide_eq_true_eq]
    by_cases h : sp.start ≤ b ∧ a ≤ sp.end_
    · rw [if_pos h, if_pos h, ih, List.length_cons]
      omega
    · rw [if_neg h, if_neg h, ih]

theorem overlapSessions_eq (spans : List SessionSpan) (a b : String) :
    overlapSessions spans a b =
      (spans.filter (fun sp => decide (sp.start ≤ b ∧ a ≤ sp.end_))).length := by
  unfold overlapSessions
  rw [overlapSessions_go, Nat.zero_add]

/-! ## C3: cost estimator -/

/-- C3: `costUSD` of a null pricing entry is null; with an entry it is
exactly `max(0, input - cached)/1e6 * input_rate + cached/1e6 *
(cached_input rate if present, else input rate) + (output +
reasoning)/1e6 * output_rate`; at the spec's concrete example the cost
is 5.7 USD. -/
theorem claim_C3 :
    (∀ rec : ModelTokenBreakdown, costUSD rec none = none) ∧
    (∀ (rec : ModelTokenBreakdown) (entry : PricingEntry),
      costUSD rec (some entry) =
        some (max 0 (rec.input_tokens - rec.cached_input_tokens) / 1000000 * entry.input +
          rec.cached_input_tokens / 1000000 * entry.cached_input.getD entry.input +
          (rec.output_tokens + rec.reasoning_output_tokens) / 1000000 * entry.output)) ∧
    costUSD ⟨1000000, 200000, 500000, 0, 1500000⟩ (some ⟨2, some (1 / 2), 8⟩) =
      some (57 / 10) := by
  refine ⟨fun rec => rfl, fun rec entry => ?_, ?_⟩
  · simp [costUSD, jsMax_eq_max]
  · norm_num [costUSD, jsMax]

/-! ## C2: range resolver invariants -/

/-- C2: with non-empty labels, `calcRangedView` always returns
`0 ≤ startIndex ≤ endIndex ≤ length - 1`, and the returned `startISO`
and `endISO` are the labels stored at those indices; with empty labels
it returns the explicitly empty view with `endIndex = -1`. -/
theorem claim_C2 (data : ReportData) (startISO endISO : String) :
    (data.daily.labels ≠ [] →
      0 ≤ (calcRangedView data startISO endISO).startIndex ∧
      (calcRangedView data startISO endISO).startIndex ≤
        (calcRangedView data startISO endISO).endIndex ∧
      (calcRangedView data startISO endISO).endIndex ≤
        (data.daily.labels.length : ℤ) - 1 ∧
      (calcRangedView data startISO endISO).startISO =
        data.daily.labels.getD (calcRangedView data startISO endISO).startIndex.toNat "" ∧
      (calcRangedView data startISO endISO).endISO =
        data.daily.labels.getD (calcRangedView data startISO endISO).endIndex.toNat "") ∧
    (data.daily.labels = [] →
      calcRangedView data startISO endISO =
        ⟨startISO, endISO, [], 0, -1⟩) := by
  constructor
  · intro hne
    have hlen : 1 ≤ data.daily.labels.length := by
      cases hl : data.daily.labels with
      | nil => exact absurd hl hne
      | cons x xs => simp
    have hemp : data.daily.labels.isEmpty = false := by
      cases hl : data.daily.labels with
      | nil => exact absurd hl hne
      | cons x xs => rfl
    simp only [calcRangedView, hemp, Bool.false_eq_true, if_false]
    refine ⟨?_, ?_, ?_, trivial, trivial⟩ <;>
      · unfold intMin intMax
        split_ifs <;> omega
  · intro hnil
    have hemp : data.daily.labels.isEmpty = true := by rw [hnil]; rfl
    simp only [calcRangedView, hemp, if_true]

/-- Closed witness for C2: both branches at concrete inputs. -/
theorem claim_C2_witness :
    (0 ≤ (calcRangedView fixData "2026-01-15" "2026-03-01").startIndex ∧
      (calcRangedView fixData "2026-01-15" "2026-03-01").startIndex ≤
        (calcRangedView fixData "2026-01-15" "2026-03-01").endIndex ∧
      (calcRangedView fixData "2026-01-15" "2026-03-01").endIndex ≤
        (fixData.daily.labels.length : ℤ) - 1 ∧
      (calcRangedView fixData "2026-01-15" "2026-03-01").startISO =
        fixData.daily.labels.getD
          (calcRangedView fixData "2026-01-15" "2026-03-01").startIndex.toNat "" ∧
      (calcRangedView fixData "2026-01-15" "2026-03-01").endISO =
        fixData.daily.labels.getD
          (calcRangedView fixData "2026-01-15" "2026-03-01").endIndex.toNat "") ∧
    calcRangedView emptyReport "2026-01-01" "2026-01-02" =
      ⟨"2026-01-01", "2026-01-02", [], 0, -1⟩ :=
  ⟨(claim_C2 fixData "2026-01-15" "2026-03-01").1 (by decide),
   (claim_C2 emptyReport "2026-01-01" "2026-01-02").2 (by decide)⟩

/-! ## C1: range-scoped statistics -/

/-- C1: on a view with `startIndex ≤ endIndex`, `computeStats` sums the
five daily series over the inclusive index range, counts active days
and overlapping sessions as specified, and computes the two rounded
averages and the cache rate with their zero-denominator conventions; on
a view with `endIndex < startIndex` it returns the all-zero record with
a null cost. -/
theorem claim_C1 (data : ReportData) (view : RangedView) :
    (view.startIndex ≤ view.endIndex →
      (computeStats data view).totalTokens =
          ∑ i ∈ Finset.Icc view.startIndex view.endIndex, elemAt data.daily.total i ∧
      (computeStats data view).inputTokens =
          ∑ i ∈ Finset.Icc view.startIndex view.endIndex, elemAt data.daily.input i ∧
      (computeStats data view).outputTokens =
          ∑ i ∈ Finset.Icc view.startIndex view.endIndex, elemAt data.daily.output i ∧
      (computeStats data view).cachedTokens =
          ∑ i ∈ Finset.Icc view.startIndex view.endIndex, elemAt data.daily.cached i ∧
      (computeStats data view).reasoningTokens =
          ∑ i ∈ Finset.Icc view.startIndex view.endIndex, elemAt data.daily.reasoning i ∧
      (computeStats data view).activeDays =
          ((Finset.Icc view.startIndex view.endIndex).filter
            (fun i => 0 < elemAt data.daily.total i)).card ∧
      (computeStats data view).sessions =
          (data.session_spans.filter
            (fun sp => decide (sp.start ≤ view.endISO ∧ view.startISO ≤ sp.end_))).length ∧
      (0 < (computeStats data view).activeDays →
        (computeStats data view).avgPerDay =
          jsRound ((computeStats data view).totalTokens /
            ((computeStats data view).activeDays : ℚ))) ∧
      ((computeStats data view).activeDays = 0 → (computeStats data view).avgPerDay = 0) ∧
      (0 < (computeStats data view).sessions →
        (computeStats data view).avgPerSession =
          jsRound ((computeStats data view).totalTokens /
            ((computeStats data view).sessions : ℚ))) ∧
      ((computeStats data view).sessions = 0 → (computeStats data view).avgPerSession = 0) ∧
      (0 < (computeStats data view).inputTokens →
        (computeStats data view).cacheRate =
          (computeStats data view).cachedTokens / (computeStats data view).inputTokens) ∧
      ((computeStats data view).inputTokens ≤ 0 → (computeStats data view).cacheRate = 0)) ∧
    (view.endIndex < view.startIndex →
      computeStats data view =
        ⟨0, 0, 0, 0, 0, 0, 0, 0, 0, 0, none⟩) := by
  constructor
  · intro h
    have hlt : ¬(view.endIndex < view.startIndex) := not_lt.mpr h
    simp only [computeStats, if_neg hlt]
    refine ⟨sumRange_eq .., sumRange_eq .., sumRange_eq .., sumRange_eq .., sumRange_eq ..,
      countActive_eq .., overlapSessions_eq .., ?_, ?_, ?_, ?_, ?_, ?_⟩
    · intro h8
      rw [if_pos h8]
    · intro h9
      rw [if_neg (by omega)]
    · intro h10
      rw [if_pos h10]
    · intro h11
      rw [if_neg (by omega)]
    · intro h12
      rw [if_pos h12]
    · intro h13
      rw [if_neg (not_lt.mpr h13)]
  · intro h
    simp only [computeStats, if_pos h]

/-- Closed witness for C1: both branches at concrete inputs. -/
theorem claim_C1_witness :
    ((0 : ℤ) ≤ 1 ∧
      (computeStats fixData fixView).totalTokens =
        ∑ i ∈ Finset.Icc fixView.startIndex fixView.endIndex, elemAt fixData.daily.total i) ∧
    computeStats fixData fixViewEmpty = ⟨0, 0, 0, 0, 0, 0, 0, 0, 0, 0, none⟩ :=
  ⟨⟨by decide, ((claim_C1 fixData fixView).1 (by decide)).1⟩,
   (claim_C1 fixData fixViewEmpty).2 (by decide)⟩

/-! ## C7: alias-walk termination -/

theorem filter_length_le_of_imp (p q : α → Bool) (h : ∀ x, q x = true → p x = true) :
    ∀ l : List α, (l.filter q).length ≤ (l.filter p).length := by
  intro l
  induction l with
  | nil => simp
  | cons x xs ih =>
    rw [List.filter_cons, List.filter_cons]
    by_cases hq : q x = true
    · rw [if_pos hq, if_pos (h x hq)]
      simpa using ih
    · rw [if_neg hq]
      by_cases hp : p x = true
      · rw [if_pos hp]
        exact le_trans ih (by simp)
      · rw [if_neg hp]
        exact ih

theorem filter_length_lt_of_imp (p q : α → Bool) (h : ∀ x, q x = true → p x = true)
    (c : α) (hpc : p c = true) (hqc : q c = false) :
    ∀ l : List α, c ∈ l → (l.filter q).length < (l.filter p).length := by
  intro l
  induction l with
  | nil => intro hmem; cases hmem
  | cons x xs ih =>
    intro hmem
    rw [List.filter_cons, List.filter_cons]
    rcases List.mem_cons.mp hmem with hx | hx
    · subst hx
      rw [if_pos hpc, if_neg (by simp [hqc])]
      have := filter_length_le_of_imp p q h xs
      simp only [List.length_cons]
      omega
    · have hrec := ih hx
      by_cases hq : q x = true
      · rw [if_pos hq, if_pos (h x hq)]
        simpa using hrec
      · rw [if_neg hq]
        by_cases hp : p x = true
        · rw [if_pos hp]
          simp only [List.length_cons]
          omega
        · rw [if_neg hp]
          exact hrec

theorem mem_keys_of_lookup_some {v : α} (m : List (String × α)) (k : String)
    (h : lookupStr k m = some v) : k ∈ keysOf m := by
  induction m with
  | nil => simp [lookupStr] at h
  | cons p rest ih =>
    rw [lookupStr] at h
    by_cases hp : p.1 = k
    · simp [keysOf, hp]
    · rw [if_neg hp] at h
      simp [keysOf]
      right
      have := ih h
      simpa [keysOf] using this

theorem lookup_eq_none_of_not_mem (m : List (String × α)) (k : String)
    (h : k ∉ keysOf m) : lookupStr k m = none := by
  induction m with
  | nil => rfl
  | cons p rest ih =>
    rw [lookupStr]
    have hp : p.1 ≠ k := by
      intro he
      exact h (by simp [keysOf, he])
    rw [if_neg hp]
    exact ih (fun hmem => h (by simp [keysOf] at hmem ⊢; right; exact hmem))

theorem contains_eq_decide_mem (l : List String) (a : String) :
    l.contains a = decide (a ∈ l) := List.elem_eq_mem a l

theorem unseenKeys_lt (aliases : List (String × String)) (seen : List String)
    (cursor : String) (hmem : cursor ∈ keysOf aliases) (hseen : cursor ∉ seen) :
    unseenKeys aliases (cursor :: seen) < unseenKeys aliases seen := by
  unfold unseenKeys
  apply filter_length_lt_of_imp
    (fun k => !seen.contains k) (fun k => !(cursor :: seen).contains k)
  · intro x hx
    simp only [Bool.not_eq_true', contains_eq_decide_mem, decide_eq_false_iff_not,
      List.mem_cons] at hx ⊢
    exact fun hm => hx (Or.inr hm)
  · simp only [Bool.not_eq_true', contains_eq_decide_mem, decide_eq_false_iff_not]
    exact hseen
  · simp [contains_eq_decide_mem]
  · exact List.mem_dedup.mpr hmem

theorem unseenKeys_le_length (aliases : List (String × String)) :
    unseenKeys aliases [] ≤ aliases.length := by
  unfold unseenKeys
  calc ((keysOf aliases).dedup.filter _).length
      ≤ (keysOf aliases).dedup.length := List.length_filter_le _ _
    _ ≤ (keysOf aliases).length := (List.dedup_sublist _).length_le
    _ = aliases.length := List.length_map _ _

theorem deAliasGo_stable (aliases : List (String × String)) :
    ∀ (f1 : Nat) (seen : List String) (cursor : String) (f2 : Nat),
      unseenKeys aliases seen < f1 → unseenKeys aliases seen < f2 →
      deAliasGo aliases f1 seen cursor = deAliasGo aliases f2 seen cursor := by
  intro f1
  induction f1 with
  | zero => intro seen cursor f2 h1 _; omega
  | succ f1 ih =>
    intro seen cursor f2 h1 h2
    cases f2 with
    | zero => omega
    | succ f2 =>
      cases hl : lookupStr cursor aliases with
      | none => simp only [deAliasGo, hl]
      | some v =>
        by_cases hc : v ≠ "" ∧ cursor ∉ seen
        · simp only [deAliasGo, hl, if_pos hc]
          have hlt := unseenKeys_lt aliases seen cursor
            (mem_keys_of_lookup_some aliases cursor hl) hc.2
          exact ih (cursor :: seen) v f2 (by omega) (by omega)
        · simp only [deAliasGo, hl, if_neg hc]

theorem deAliasGo_post (aliases : List (String × String)) :
    ∀ (f : Nat) (seen : List String) (cursor : String),
      unseenKeys aliases seen < f →
      hasAlias aliases (deAliasGo aliases f seen cursor).1 = false ∨
        (deAliasGo aliases f seen cursor).1 ∈ (deAliasGo aliases f seen cursor).2 := by
  intro f
  induction f with
  | zero => intro seen cursor h; omega
  | succ f ih =>
    intro seen cursor h
    cases hl : lookupStr cursor aliases with
    | none =>
      left
      simp only [deAliasGo, hl, hasAlias]
    | some v =>
      by_cases hc : v ≠ "" ∧ cursor ∉ seen
      · simp only [deAliasGo, hl, if_pos hc]
        have hlt := unseenKeys_lt aliases seen cursor
          (mem_keys_of_lookup_some aliases cursor hl) hc.2
        exact ih (cursor :: seen) v (by omega)
      · simp only [deAliasGo, hl, if_neg hc]
        rcases not_and_or.mp hc with hv | hs
        · left
          simp only [hasAlias, hl]
          simpa using not_not.mp hv
        · right
          exact not_not.mp hs

/-- C7: with fuel `aliases.length + 1` the alias walk has stabilised
(more fuel never changes the result, so it performs at most as many
substitutions as there are table entries), and the returned name either
has no further (truthy) alias or is a member of the visited set; on the
two-node cycle `a → b → a` it returns one of the cycle's members. -/
theorem claim_C7 :
    (∀ (aliases : List (String × String)) (value : String) (extra : Nat),
      deAliasGo aliases (aliases.length + 1 + extra) [] value =
        deAliasFull aliases value) ∧
    (∀ (aliases : List (String × String)) (value : String),
      hasAlias aliases (deAliasFull aliases value).1 = false ∨
        (deAliasFull aliases value).1 ∈ (deAliasFull aliases value).2) ∧
    (deAlias [("a", "b"), ("b", "a")] "a" = "a" ∨
      deAlias [("a", "b"), ("b", "a")] "a" = "b") := by
  refine ⟨?_, ?_, ?_⟩
  · intro aliases value extra
    have hle := unseenKeys_le_length aliases
    exact deAliasGo_stable aliases (aliases.length + 1 + extra) [] value
      (aliases.length + 1) (by omega) (by omega)
  · intro aliases value
    have hle := unseenKeys_le_length aliases
    exact deAliasGo_post aliases (aliases.length + 1) [] value (by omega)
  · left
    decide

/-! ## C5: pricing match order -/

/-- C5: `resolvePricing` is the first-hit-wins chain of (1) exact match
of the fully de-aliased normalized name, (2) the de-aliased base name
(before the first `:`), (3) the first price key `K` with the base
starting with `K + "-"`, (4) the literal gpt-5 minor-version fallback
ladder, and otherwise no price; concretely, an unknown `gpt-5.3` model
falls back to `gpt-5.2` and then to bare `gpt-5`, and a model without
any match yields `none`, distinct from a zero price. -/
theorem claim_C5 :
    (∀ (model : String) (pricing : PricingBook),
      resolvePricing model pricing =
        (let prices := pricing.prices
         let normalized := deAlias pricing.aliases (normalizeModelName model)
         let base := deAlias pricing.aliases
           ((normalized.data.takeWhile (fun c => c ≠ ':')).asString)
         firstSome
           [lookupStr normalized prices,
            lookupStr base prices,
            (prices.find? (fun kv => strStartsWith base (kv.1 ++ "-"))).map Prod.snd,
            gpt5Ladder base prices])) ∧
    resolvePricing "gpt-5.3-mini" ⟨[("gpt-5", ⟨1, none, 2⟩)], []⟩ = some ⟨1, none, 2⟩ ∧
    resolvePricing "gpt-5.3" ⟨[("gpt-5.2", ⟨3, none, 4⟩), ("gpt-5", ⟨1, none, 2⟩)], []⟩ =
      some ⟨3, none, 4⟩ ∧
    resolvePricing "gpt-5.2-mini" ⟨[("gpt-5", ⟨1, none, 2⟩)], []⟩ = none ∧
    resolvePricing "other-model" ⟨[("m0", ⟨0, some 0, 0⟩)], []⟩ = none := by
  refine ⟨?_, by decide, by decide, by decide, by decide⟩
  intro model pricing
  simp only [resolvePricing, gpt5Ladder]
  cases h1 : lookupStr (deAlias pricing.aliases (normalizeModelName model)) pricing.prices with
  | some e => simp [firstSome, h1]
  | none =>
    cases h2 : lookupStr
        (deAlias pricing.aliases
          (((deAlias pricing.aliases (normalizeModelName model)).data.takeWhile
            (fun c => c ≠ ':')).asString)) pricing.prices with
    | some e => simp [firstSome, h1, h2]
    | none =>
      cases h3 : pricing.prices.find?
          (fun kv =>
            strStartsWith
              (deAlias pricing.aliases
                (((deAlias pricing.aliases (normalizeModelName model)).data.takeWhile
                  (fun c => c ≠ ':')).asString)) (kv.1 ++ "-")) with
      | some kv => simp [firstSome, h1, h2, h3]
      | none => simp [firstSome, gpt5Ladder, h1, h2, h3]

/-! ## C6: model-name normalization -/

/-- C6 (counterexample): the part after the first `:` is not preserved
verbatim — `normalizeModelName` trims it, so `"m: f"` normalizes to
`"m:f"`, not to the verbatim reattachment `"m: f"`. -/
theorem claim_C6_counterexample :
    normalizeModelName "m: f" = "m:f" ∧ ("m:f" : String) ≠ "m: f" := by
  constructor
  · decide
  · decide

/-- C6 (amended): `normalizeModelName` trims whitespace and returns
`"unknown"` for an empty trimmed name; it splits at the first `:`,
strips parenthetical annotations (ASCII and full-width) from the head
and collapses the head's whitespace; the remainder is trimmed and, when
non-empty, reattached after a `:` separator; in particular
`normalizeModelName "gpt-5.1-mini (preview)" = "gpt-5.1-mini"`. -/
theorem claim_C6 :
    (∀ model : String, normalizeModelName model = normalizeModelNameSpec model) ∧
    normalizeModelName "gpt-5.1-mini (preview)" = "gpt-5.1-mini" ∧
    normalizeModelName "m: f" = "m:f" := by
  refine ⟨fun model => rfl, by decide, by decide⟩

/-! ## C9: point compression -/

theorem chunksB_flatten (b : Nat) :
    ∀ (n : Nat) (l : List α), l.length ≤ n → (chunksB b l).flatten = l := by
  intro n
  induction n with
  | zero =>
    intro l h
    have hl : l = [] := List.eq_nil_of_length_eq_zero (by omega)
    subst hl
    simp [chunksB]
  | succ n ih =>
    intro l h
    cases l with
    | nil => simp [chunksB]
    | cons x xs =>
      simp only [chunksB, List.flatten_cons]
      rw [ih (xs.drop b) (by rw [List.length_drop]; simp only [List.length_cons] at h; omega)]
      rw [List.cons_append, List.take_append_drop]

theorem chunksB_length_le (b : Nat) :
    ∀ (m : Nat) (l : List α), l.length ≤ m * (b + 1) → (chunksB b l).length ≤ m := by
  intro m
  induction m with
  | zero =>
    intro l h
    have hl : l = [] := List.eq_nil_of_length_eq_zero (by omega)
    subst hl
    simp [chunksB]
  | succ m ih =>
    intro l h
    cases l with
    | nil => simp [chunksB]
    | cons x xs =>
      simp only [chunksB, List.length_cons]
      have hmul : (m + 1) * (b + 1) = m * (b + 1) + (b + 1) := by ring
      have hd : (xs.drop b).length ≤ m * (b + 1) := by
        rw [List.length_drop]
        simp only [List.length_cons] at h
        omega
      have := ih (xs.drop b) hd
      omega

theorem sumTokens_eq_map_sum (l : List ChartPoint) :
    sumTokens l = (l.map (fun p => p.tokens)).sum := by
  unfold sumTokens
  rw [foldl_add_eq, zero_add]

theorem bucketOf_tokens (s : List ChartPoint) :
    (bucketOf s).tokens = (s.map (fun p => p.tokens)).sum := by
  unfold bucketOf
  rw [foldl_add_eq, zero_add]

theorem sumTokens_map_bucketOf (cs : List (List ChartPoint)) :
    sumTokens (cs.map bucketOf) = sumTokens cs.flatten := by
  rw [sumTokens_eq_map_sum, sumTokens_eq_map_sum, List.map_map, List.map_flatten,
    List.sum_flatten, List.map_map]
  apply congrArg List.sum
  apply List.map_congr_left
  intro c _
  exact bucketOf_tokens c

theorem bucketOf_singleton (p : ChartPoint) : bucketOf [p] = p := by
  cases p with
  | mk label tokens => simp [bucketOf, List.getLastD, List.headD]

theorem flatten_map_singleton (l : List α) : (l.map (fun x => [x])).flatten = l := by
  induction l with
  | nil => rfl
  | cons x xs ih => simp [ih]

/-- C9 (counterexample): a bucket is not always labelled with its last
point's label — on `[⟨"a", 1⟩, ⟨"", 2⟩]` with `maxPoints = 1` the
single bucket's last point has the empty (falsy) label, so the program
falls back to the first point's label `"a"`; hence no contiguous
partition whose buckets are labelled with their last points yields the
output. -/
theorem claim_C9_counterexample :
    compressPoints [⟨"a", 1⟩, ⟨"", 2⟩] 1 = [⟨"a", 3⟩] ∧
    ¬∃ buckets : List (List ChartPoint),
      buckets.flatten = ([⟨"a", 1⟩, ⟨"", 2⟩] : List ChartPoint) ∧
      compressPoints [⟨"a", 1⟩, ⟨"", 2⟩] 1 = buckets.map lastLabelBucket := by
  have hc : compressPoints [⟨"a", 1⟩, ⟨"", 2⟩] 1 = [⟨"a", 3⟩] := by
    norm_num [compressPoints, chunksB, bucketOf, List.getLastD, List.headD]
  refine ⟨hc, ?_⟩
  rintro ⟨buckets, hflat, heq⟩
  rw [hc] at heq
  rcases buckets with _ | ⟨b, _ | ⟨b2, rest⟩⟩
  · simp at heq
  · have hb : b = ([⟨"a", 1⟩, ⟨"", 2⟩] : List ChartPoint) := by
      simpa using hflat
    subst hb
    rw [List.map_cons, List.map_nil] at heq
    injection heq with h1 _
    have hlab := congrArg ChartPoint.label h1
    simp [lastLabelBucket, List.getLastD] at hlab
  · simp at heq

/-- C9 (amended): for `maxPoints ≥ 1`, `compressPoints` preserves the
total token mass, returns at most `maxPoints` points, its output is the
bucket list of a contiguous partition of the input (each bucket summed
and labelled with its last point's label, falling back to its first
point's label when the last label is empty), and it returns the input
unchanged when it already fits. -/
theorem claim_C9 (points : List ChartPoint) (maxPoints : Nat) (h : 1 ≤ maxPoints) :
    sumTokens (compressPoints points maxPoints) = sumTokens points ∧
    (compressPoints points maxPoints).length ≤ maxPoints ∧
    (∃ buckets : List (List ChartPoint),
      buckets.flatten = points ∧
      compressPoints points maxPoints = buckets.map bucketOf) ∧
    (points.length ≤ maxPoints → compressPoints points maxPoints = points) := by
  by_cases hle : points.length ≤ maxPoints
  · unfold compressPoints
    rw [if_pos hle]
    refine ⟨rfl, hle, ⟨points.map (fun p => [p]), flatten_map_singleton points, ?_⟩,
      fun _ => rfl⟩
    rw [List.map_map]
    calc points = points.map id := (List.map_id points).symm
      _ = points.map (bucketOf ∘ fun p => [p]) :=
          List.map_congr_left (fun p _ => (bucketOf_singleton p).symm)
  · have hlen : maxPoints < points.length := not_le.mp hle
    unfold compressPoints
    rw [if_neg hle]
    have hdm := Nat.div_add_mod (points.length + maxPoints - 1) maxPoints
    have hmod := Nat.mod_lt (points.length + maxPoints - 1)
      (show 0 < maxPoints by omega)
    have hq1 : 1 ≤ (points.length + maxPoints - 1) / maxPoints := by
      rw [Nat.le_div_iff_mul_le (show 0 < maxPoints by omega)]
      omega
    have hmq : points.length ≤
        maxPoints * ((points.length + maxPoints - 1) / maxPoints) := by
      omega
    have hflat : (chunksB ((points.length + maxPoints - 1) / maxPoints - 1) points).flatten
        = points := chunksB_flatten _ points.length points le_rfl
    refine ⟨?_, ?_,
      ⟨chunksB ((points.length + maxPoints - 1) / maxPoints - 1) points, hflat, rfl⟩,
      fun hc => absurd hc hle⟩
    · rw [sumTokens_map_bucketOf, hflat]
    · rw [List.length_map]
      apply chunksB_length_le
      have hq : (points.length + maxPoints - 1) / maxPoints - 1 + 1 =
          (points.length + maxPoints - 1) / maxPoints := by omega
      rw [hq]
      exact hmq

/-- Closed witness for C9: compressing three points into two buckets. -/
theorem claim_C9_witness :
    sumTokens (compressPoints fixPoints 2) = sumTokens fixPoints ∧
    (compressPoints fixPoints 2).length ≤ 2 ∧
    (∃ buckets : List (List ChartPoint),
      buckets.flatten = fixPoints ∧
      compressPoints fixPoints 2 = buckets.map bucketOf) ∧
    (fixPoints.length ≤ 2 → compressPoints fixPoints 2 = fixPoints) :=
  claim_C9 fixPoints 2 (by decide)

/-! ## Merge accumulator lemmas (C4, C10) -/

theorem lookupStr_upsertAdd (m : List (String × DayRec)) (k : String) (v : DayRec)
    (k' : String) :
    lookupStr k' (upsertAdd m k v) =
      if k' = k then some (lookupD m k' + v) else lookupStr k' m := by
  induction m with
  | nil =>
    by_cases h : k' = k
    · subst h
      simp [upsertAdd, upsertWith, lookupStr, lookupD]
    · rw [if_neg h]
      simp only [upsertAdd, upsertWith, lookupStr]
      rw [if_neg (fun hh => h hh.symm)]
  | cons p rest ih =>
    simp only [upsertAdd, upsertWith] at ih ⊢
    by_cases hpk : p.1 = k
    · rw [if_pos hpk]
      by_cases hk' : k' = k
      · subst hk'
        rw [if_pos rfl]
        simp only [lookupStr, lookupD, if_pos hpk]
        simp
      · rw [if_neg hk']
        have hpk' : p.1 ≠ k' := fun hh => hk' (hh.symm.trans hpk)
        simp only [lookupStr, if_neg hpk']
    · rw [if_neg hpk]
      by_cases hpk' : p.1 = k'
      · have hk' : ¬(k' = k) := fun hh => hpk (hpk'.trans hh)
        rw [if_neg hk']
        simp only [lookupStr, if_pos hpk']
      · simp only [lookupStr, if_neg hpk']
        rw [ih]
        by_cases hk' : k' = k
        · rw [if_pos hk', if_pos hk']
          simp only [lookupD, lookupStr, if_neg hpk']
        · rw [if_neg hk', if_neg hk']

theorem lookupD_upsertAdd (m : List (String × DayRec)) (k : String) (v : DayRec)
    (k' : String) :
    lookupD (upsertAdd m k v) k' =
      if k' = k then lookupD m k' + v else lookupD m k' := by
  unfold lookupD
  rw [lookupStr_upsertAdd]
  by_cases h : k' = k
  · rw [if_pos h, if_pos h]
    rfl
  · rw [if_neg h, if_neg h]

theorem mem_keys_upsertAdd (m : List (String × DayRec)) (k : String) (v : DayRec)
    (a : String) :
    a ∈ keysOf (upsertAdd m k v) ↔ a ∈ keysOf m ∨ a = k := by
  induction m with
  | nil => simp [upsertAdd, upsertWith, keysOf]
  | cons p rest ih =>
    simp only [upsertAdd, upsertWith] at ih ⊢
    by_cases hpk : p.1 = k
    · rw [if_pos hpk]
      simp only [keysOf, List.map_cons, List.mem_cons]
      constructor
      · rintro (h | h)
        · exact Or.inl (Or.inl h)
        · exact Or.inl (Or.inr h)
      · rintro ((h | h) | h)
        · exact Or.inl h
        · exact Or.inr h
        · exact Or.inl (h.trans hpk.symm)
    · rw [if_neg hpk]
      simp only [keysOf, List.map_cons, List.mem_cons] at ih ⊢
      rw [ih]
      tauto

theorem nodup_keys_upsertAdd (m : List (String × DayRec)) (k : String) (v : DayRec)
    (h : (keysOf m).Nodup) : (keysOf (upsertAdd m k v)).Nodup := by
  induction m with
  | nil => simp [upsertAdd, upsertWith, keysOf]
  | cons p rest ih =>
    simp only [upsertAdd, upsertWith]
    simp only [keysOf, List.map_cons, List.nodup_cons] at h
    by_cases hpk : p.1 = k
    · rw [if_pos hpk]
      simp only [keysOf, List.map_cons, List.nodup_cons]
      exact ⟨h.1, h.2⟩
    · rw [if_neg hpk]
      simp only [keysOf, List.map_cons, List.nodup_cons]
      refine ⟨?_, ih h.2⟩
      intro hmem
      rcases (mem_keys_upsertAdd rest k v p.1).mp hmem with hm | he
      · exact h.1 hm
      · exact hpk he

theorem lookupD_foldUpsert (ps : List (String × DayRec)) :
    ∀ (m : List (String × DayRec)) (d : String),
      lookupD (ps.foldl (fun acc p => upsertAdd acc p.1 p.2) m) d =
        lookupD m d + ((ps.filter (fun p => p.1 = d)).map Prod.snd).sum := by
  induction ps with
  | nil => intro m d; simp
  | cons p rest ih =>
    intro m d
    rw [List.foldl_cons, ih, lookupD_upsertAdd, List.filter_cons]
    by_cases hpd : p.1 = d
    · rw [if_pos hpd.symm, if_pos (by simpa using hpd), List.map_cons, List.sum_cons,
        ← add_assoc]
    · rw [if_neg (fun hh => hpd hh.symm), if_neg (by simpa using hpd)]

theorem mem_keys_foldUpsert (ps : List (String × DayRec)) :
    ∀ (m : List (String × DayRec)) (a : String),
      a ∈ keysOf (ps.foldl (fun acc p => upsertAdd acc p.1 p.2) m) ↔
        a ∈ keysOf m ∨ a ∈ ps.map Prod.fst := by
  induction ps with
  | nil => intro m a; simp
  | cons p rest ih =>
    intro m a
    rw [List.foldl_cons, ih, mem_keys_upsertAdd]
    simp only [List.map_cons, List.mem_cons]
    tauto

theorem nodup_keys_foldUpsert (ps : List (String × DayRec)) :
    ∀ (m : List (String × DayRec)), (keysOf m).Nodup →
      (keysOf (ps.foldl (fun acc p => upsertAdd acc p.1 p.2) m)).Nodup := by
  induction ps with
  | nil => intro m h; exact h
  | cons p rest ih =>
    intro m h
    rw [List.foldl_cons]
    exact ih _ (nodup_keys_upsertAdd m p.1 p.2 h)

theorem foldl_mergeDayMap (valid : List ReportData) :
    ∀ (m : List (String × DayRec)),
      valid.foldl mergeDayMap m =
        ((valid.map pairsOf).flatten).foldl (fun acc p => upsertAdd acc p.1 p.2) m := by
  induction valid with
  | nil => intro m; rfl
  | cons d rest ih =>
    intro m
    rw [List.foldl_cons, ih, List.map_cons, List.flatten_cons, List.foldl_append]
    rfl

theorem firstIdx_none_ne (p : α → Bool) (l : List α) (h : firstIdx p l = none) :
    ∀ x ∈ l, p x = false := by
  induction l with
  | nil => intro x hx; cases hx
  | cons y ys ih =>
    rw [firstIdx] at h
    by_cases hy : p y = true
    · rw [if_pos hy] at h
      cases h
    · rw [if_neg hy] at h
      intro x hx
      rcases List.mem_cons.mp hx with he | hx
      · subst he
        cases hb : p x
        · rfl
        · exact absurd hb hy
      · exact ih (Option.map_eq_none'.mp h) x hx

theorem firstIdx_some_get (p : α → Bool) (l : List α) (i : Nat)
    (h : firstIdx p l = some i) :
    ∃ hlt : i < l.length, p (l.get ⟨i, hlt⟩) = true := by
  induction l generalizing i with
  | nil => cases h
  | cons y ys ih =>
    rw [firstIdx] at h
    by_cases hy : p y = true
    · rw [if_pos hy] at h
      cases h
      exact ⟨by simp, hy⟩
    · rw [if_neg hy] at h
      rcases Option.map_eq_some'.mp h with ⟨j, hj, hji⟩
      subst hji
      rcases ih j hj with ⟨hlt, hp⟩
      exact ⟨by simpa using Nat.succ_lt_succ hlt, by simpa using hp⟩

theorem getD_map_lt {β : Type} (f : String → β) (l : List String) (i : Nat)
    (h : i < l.length) (dflt : β) :
    (l.map f).getD i dflt = f (l.get ⟨i, h⟩) := by
  rw [List.getD_eq_getElem?_getD, List.getElem?_map, List.getElem?_eq_getElem h]
  rfl

theorem assembleDaily_labels (dm : List (String × DayRec)) :
    (assembleDaily dm).labels = List.insertionSort (· ≤ ·) (keysOf dm) := rfl

theorem seriesAtD_assembleDaily (dm : List (String × DayRec)) (d : String) :
    seriesAtD (assembleDaily dm) d = lookupD dm d := by
  have hperm : List.Perm (List.insertionSort (· ≤ ·) (keysOf dm)) (keysOf dm) :=
    List.perm_insertionSort _ _
  unfold seriesAtD
  rw [assembleDaily_labels]
  cases hf : firstIdx (fun l => l = d) (List.insertionSort (· ≤ ·) (keysOf dm)) with
  | some i =>
    rcases firstIdx_some_get _ _ i hf with ⟨hlt, hp⟩
    have hd : (List.insertionSort (· ≤ ·) (keysOf dm)).get ⟨i, hlt⟩ = d := by
      simpa using hp
    unfold dayAtD assembleDaily
    simp only
    rw [getD_map_lt _ _ i hlt, getD_map_lt _ _ i hlt, getD_map_lt _ _ i hlt,
      getD_map_lt _ _ i hlt, getD_map_lt _ _ i hlt, hd]
  | none =>
    have hdmem : d ∉ keysOf dm := by
      intro hmem
      have hmem2 : d ∈ List.insertionSort (· ≤ ·) (keysOf dm) :=
        hperm.symm.subset hmem
      have := firstIdx_none_ne _ _ hf d hmem2
      simp at this
    have : lookupStr d dm = none := lookup_eq_none_of_not_mem dm d hdmem
    simp [lookupD, this]

theorem filter_enumIdx_nil (g : Nat → DayRec) (d : String) :
    ∀ (lbls : List String) (n : Nat), d ∉ lbls →
      ((enumIdx n lbls).map (fun p => (p.2, g p.1))).filter (fun p => p.1 = d) = [] := by
  intro lbls
  induction lbls with
  | nil => intro n _; rfl
  | cons x xs ih =>
    intro n h
    have hx : ¬(x = d) := fun hh => h (by simp [hh])
    rw [enumIdx, List.map_cons, List.filter_cons, if_neg (by simpa using hx)]
    exact ih (n + 1) (fun hm => h (List.mem_cons.mpr (Or.inr hm)))

theorem filterSum_enumIdx (g : Nat → DayRec) (d : String) :
    ∀ (lbls : List String) (n : Nat), lbls.Nodup →
      ((((enumIdx n lbls).map (fun p => (p.2, g p.1))).filter
          (fun p => p.1 = d)).map Prod.snd).sum =
        (match firstIdx (fun l => l = d) lbls with
         | some i => g (n + i)
         | none => 0) := by
  intro lbls
  induction lbls with
  | nil => intro n _; simp [enumIdx, firstIdx]
  | cons x xs ih =>
    intro n hnd
    rw [enumIdx, List.map_cons, List.filter_cons, firstIdx]
    by_cases hx : x = d
    · rw [if_pos (by simpa using hx), if_pos (by simpa using hx)]
      rw [List.map_cons, List.sum_cons]
      have hdnot : d ∉ xs := by
        subst hx
        exact (List.nodup_cons.mp hnd).1
      rw [filter_enumIdx_nil g d xs (n + 1) hdnot]
      simp
    · rw [if_neg (by simpa using hx), if_neg (by simpa using hx)]
      rw [ih (n + 1) (List.nodup_cons.mp hnd).2]
      cases hf : firstIdx (fun l => l = d) xs with
      | some j =>
        simp only [hf, Option.map_some']
        have hn : n + 1 + j = n + (j + 1) := by omega
        rw [hn]
      | none => simp only [hf, Option.map_none']

theorem mergeReportData_eq_of_filter_eq (ds₁ ds₂ : List ReportData)
    (h : ds₁.filter (fun item => !item.daily.labels.isEmpty) =
         ds₂.filter (fun item => !item.daily.labels.isEmpty)) :
    mergeReportData ds₁ = mergeReportData ds₂ := by
  simp only [mergeReportData, h]

theorem mergeReportData_some (datasets : List ReportData) (r : ReportData)
    (h : mergeReportData datasets = some r) :
    r.daily = assembleDaily (mergedDayMap
      (datasets.filter (fun item => !item.daily.labels.isEmpty))) ∧
    r.daily.labels ≠ [] ∧
    r.range = ⟨r.daily.labels.headD "", r.daily.labels.getLastD "",
      r.daily.labels.length⟩ ∧
    r.hourly_daily = (datasets.filter (fun item => !item.daily.labels.isEmpty)).foldl
      mergeHourlyDaily [] := by
  simp only [mergeReportData] at h
  by_cases h1 : (datasets.filter (fun item => !item.daily.labels.isEmpty)).isEmpty
  · rw [if_pos h1] at h
    cases h
  · rw [if_neg h1] at h
    by_cases h2 : (assembleDaily (mergedDayMap
        (datasets.filter (fun item => !item.daily.labels.isEmpty)))).labels.isEmpty
    · rw [if_pos h2] at h
      cases h
    · rw [if_neg h2] at h
      injection h with hr
      subst hr
      refine ⟨rfl, ?_, rfl, rfl⟩
      intro hnil
      rw [hnil] at h2
      exact h2 rfl

theorem headD_eq_head (l : List String) (hne : l ≠ []) (d : String) :
    l.headD d = l.head hne := by
  cases l with
  | nil => exact absurd rfl hne
  | cons x xs => rfl

theorem getLastD_eq_getLast (l : List String) (hne : l ≠ []) (d : String) :
    l.getLastD d = l.getLast hne := by
  rw [List.getLastD_eq_getLast?, List.getLast?_eq_getLast l hne]
  rfl

theorem upsertHours_len (m : List (String × List ℚ)) (k : String) (hours : List ℚ)
    (hm : ∀ p ∈ m, p.2.length = 24) :
    ∀ p ∈ upsertHours m k hours, p.2.length = 24 := by
  induction m with
  | nil =>
    intro p hp
    rcases List.mem_singleton.mp hp with rfl
    simp [addHours]
  | cons q rest ih =>
    intro p hp
    rw [upsertHours] at hp
    by_cases hq : q.1 = k
    · rw [if_pos hq] at hp
      rcases List.mem_cons.mp hp with rfl | hp2
      · simp [addHours]
      · exact hm p (List.mem_cons.mpr (Or.inr hp2))
    · rw [if_neg hq] at hp
      rcases List.mem_cons.mp hp with rfl | hp2
      · exact hm p (List.mem_cons.mpr (Or.inl rfl))
      · exact ih (fun x hx => hm x (List.mem_cons.mpr (Or.inr hx))) p hp2

theorem foldl_upsertHours_len (l : List (String × List ℚ)) :
    ∀ (t : List (String × List ℚ)), (∀ p ∈ t, p.2.length = 24) →
      ∀ p ∈ l.foldl (fun m q => upsertHours m q.1 q.2) t, p.2.length = 24 := by
  induction l with
  | nil => intro t ht; exact ht
  | cons q rest ih =>
    intro t ht
    rw [List.foldl_cons]
    exact ih _ (upsertHours_len t q.1 q.2 ht)

theorem foldl_mergeHourlyDaily_len (ds : List ReportData) :
    ∀ (t : List (String × List ℚ)), (∀ p ∈ t, p.2.length = 24) →
      ∀ p ∈ ds.foldl mergeHourlyDaily t, p.2.length = 24 := by
  induction ds with
  | nil => intro t ht; exact ht
  | cons d rest ih =>
    intro t ht
    rw [List.foldl_cons]
    exact ih _ (foldl_upsertHours_len d.hourly_daily t ht)

theorem map_fst_enumIdx (g : Nat → DayRec) :
    ∀ (lbls : List String) (n : Nat),
      (((enumIdx n lbls).map (fun p => (p.2, g p.1))).map Prod.fst) = lbls := by
  intro lbls
  induction lbls with
  | nil => intro n; rfl
  | cons x xs ih =>
    intro n
    rw [enumIdx, List.map_cons, List.map_cons, ih (n + 1)]

theorem assembleDaily_labels_ne (dm : List (String × DayRec)) (x : String)
    (hx : x ∈ keysOf dm) : (assembleDaily dm).labels ≠ [] := by
  rw [assembleDaily_labels]
  intro hnil
  have hmem : x ∈ List.insertionSort (· ≤ ·) (keysOf dm) :=
    ((List.perm_insertionSort _ _).mem_iff).mpr hx
  rw [hnil] at hmem
  cases hmem

theorem merge_singleton_ne_none (A : ReportData) (hne : A.daily.labels ≠ []) :
    mergeReportData [A] ≠ none := by
  have hq : (!A.daily.labels.isEmpty) = true := by
    cases hl : A.daily.labels with
    | nil => exact absurd hl hne
    | cons x xs => rfl
  have hfil : ([A].filter (fun item => !item.daily.labels.isEmpty)) = [A] := by
    rw [List.filter_cons, if_pos hq]
    rfl
  obtain ⟨x, xs, hl⟩ : ∃ x xs, A.daily.labels = x :: xs := by
    cases hlb : A.daily.labels with
    | nil => exact absurd hlb hne
    | cons x xs => exact ⟨x, xs, rfl⟩
  have hxk : x ∈ keysOf (mergedDayMap [A]) := by
    unfold mergedDayMap
    rw [foldl_mergeDayMap]
    rw [mem_keys_foldUpsert]
    right
    simp only [List.map_cons, List.map_nil, List.flatten_cons, List.flatten_nil,
      List.append_nil]
    rw [pairsOf, map_fst_enumIdx, hl]
    exact List.mem_cons.mpr (Or.inl rfl)
  have hlne := assembleDaily_labels_ne (mergedDayMap [A]) x hxk
  intro hm
  simp only [mergeReportData, hfil] at hm
  rw [if_neg (by simp)] at hm
  rw [if_neg (by simpa using hlne)] at hm
  cases hm

/-! ## C4: merge identity and commutativity -/

/-- C4: merging the singleton `[A]` (for `A` with non-empty,
de-duplicated labels) reproduces `A`'s per-day totals keyed by day
label, and merging `[A, B]` and `[B, A]` yields identical sorted label
sequences and identical per-day totals. -/
theorem claim_C4 :
    (∀ A : ReportData, A.daily.labels ≠ [] → A.daily.labels.Nodup →
      ∀ d, mergedTotals (mergeReportData [A]) d = seriesAtD A.daily d) ∧
    (∀ A B : ReportData,
      mergedLabels (mergeReportData [A, B]) = mergedLabels (mergeReportData [B, A]) ∧
      ∀ d, mergedTotals (mergeReportData [A, B]) d =
        mergedTotals (mergeReportData [B, A]) d) := by
  constructor
  · -- identity on singletons
    intro A hne hnd d
    have hq : (!A.daily.labels.isEmpty) = true := by
      cases hl : A.daily.labels with
      | nil => exact absurd hl hne
      | cons x xs => rfl
    have hfil : ([A].filter (fun item => !item.daily.labels.isEmpty)) = [A] := by
      rw [List.filter_cons, if_pos hq]
      rfl
    have hkey : lookupD (mergedDayMap [A]) d = seriesAtD A.daily d := by
      unfold mergedDayMap
      rw [foldl_mergeDayMap]
      simp only [List.map_cons, List.map_nil, List.flatten_cons, List.flatten_nil,
        List.append_nil]
      rw [lookupD_foldUpsert]
      rw [pairsOf, filterSum_enumIdx (dayAtD A.daily) d A.daily.labels 0 hnd]
      unfold seriesAtD
      cases hf : firstIdx (fun l => l = d) A.daily.labels with
      | some i => simp [lookupD, lookupStr]
      | none => simp [lookupD, lookupStr]
    cases hm : mergeReportData [A] with
    | none => exact absurd hm (merge_singleton_ne_none A hne)
    | some r =>
      obtain ⟨hdaily, _, _, _⟩ := mergeReportData_some [A] r hm
      show seriesAtD r.daily d = seriesAtD A.daily d
      rw [hdaily, hfil, seriesAtD_assembleDaily, hkey]
  · -- commutativity in labels and totals
    intro A B
    cases hqa : A.daily.labels.isEmpty with
    | true =>
      cases hqb : B.daily.labels.isEmpty with
      | true =>
        have hfil : ([A, B].filter (fun item => !item.daily.labels.isEmpty)) =
            ([B, A].filter (fun item => !item.daily.labels.isEmpty)) := by
          simp [List.filter_cons, hqa, hqb]
        rw [mergeReportData_eq_of_filter_eq _ _ hfil]
        exact ⟨rfl, fun d => rfl⟩
      | false =>
        have hfil : ([A, B].filter (fun item => !item.daily.labels.isEmpty)) =
            ([B, A].filter (fun item => !item.daily.labels.isEmpty)) := by
          simp [List.filter_cons, hqa, hqb]
        rw [mergeReportData_eq_of_filter_eq _ _ hfil]
        exact ⟨rfl, fun d => rfl⟩
    | false =>
      cases hqb : B.daily.labels.isEmpty with
      | true =>
        have hfil : ([A, B].filter (fun item => !item.daily.labels.isEmpty)) =
            ([B, A].filter (fun item => !item.daily.labels.isEmpty)) := by
          simp [List.filter_cons, hqa, hqb]
        rw [mergeReportData_eq_of_filter_eq _ _ hfil]
        exact ⟨rfl, fun d => rfl⟩
      | false =>
        have hfil₁ : ([A, B].filter (fun item => !item.daily.labels.isEmpty)) = [A, B] := by
          simp [List.filter_cons, hqa, hqb]
        have hfil₂ : ([B, A].filter (fun item => !item.daily.labels.isEmpty)) = [B, A] := by
          simp [List.filter_cons, hqa, hqb]
        have hflookup : ∀ d, lookupD (mergedDayMap [A, B]) d =
            lookupD (mergedDayMap [B, A]) d := by
          intro d
          unfold mergedDayMap
          rw [foldl_mergeDayMap, foldl_mergeDayMap]
          simp only [List.map_cons, List.map_nil, List.flatten_cons, List.flatten_nil,
            List.append_nil]
          rw [lookupD_foldUpsert, lookupD_foldUpsert, List.filter_append,
            List.filter_append, List.map_append, List.map_append, List.sum_append,
            List.sum_append]
          abel
        have hmem : ∀ a, a ∈ keysOf (mergedDayMap [A, B]) ↔
            a ∈ keysOf (mergedDayMap [B, A]) := by
          intro a
          unfold mergedDayMap
          rw [foldl_mergeDayMap, foldl_mergeDayMap, mem_keys_foldUpsert,
            mem_keys_foldUpsert]
          simp only [List.map_cons, List.map_nil, List.flatten_cons, List.flatten_nil,
            List.append_nil, List.map_append, List.mem_append]
          tauto
        have hnd₁ : (keysOf (mergedDayMap [A, B])).Nodup := by
          unfold mergedDayMap
          rw [foldl_mergeDayMap]
          exact nodup_keys_foldUpsert _ [] (by simp [keysOf])
        have hnd₂ : (keysOf (mergedDayMap [B, A])).Nodup := by
          unfold mergedDayMap
          rw [foldl_mergeDayMap]
          exact nodup_keys_foldUpsert _ [] (by simp [keysOf])
        have hperm : List.Perm (keysOf (mergedDayMap [A, B]))
            (keysOf (mergedDayMap [B, A])) :=
          (List.perm_ext_iff_of_nodup hnd₁ hnd₂).mpr hmem
        have hsortEq : List.insertionSort (· ≤ ·) (keysOf (mergedDayMap [A, B])) =
            List.insertionSort (· ≤ ·) (keysOf (mergedDayMap [B, A])) :=
          List.eq_of_perm_of_sorted
            ((List.perm_insertionSort _ _).trans
              (hperm.trans (List.perm_insertionSort _ _).symm))
            (List.sorted_insertionSort _ _) (List.sorted_insertionSort _ _)
        have hdaily : assembleDaily (mergedDayMap [A, B]) =
            assembleDaily (mergedDayMap [B, A]) := by
          simp only [assembleDaily]
          rw [hsortEq, DailySeries.mk.injEq]
          refine ⟨rfl, ?_, ?_, ?_, ?_, ?_⟩ <;>
            exact List.map_congr_left (fun d _ => by rw [hflookup d])
        constructor
        · simp only [mergeReportData, hfil₁, hfil₂, hdaily]
          by_cases hE : (assembleDaily (mergedDayMap [B, A])).labels.isEmpty = true
          · rw [if_pos hE, if_pos hE]
            rfl
          · rw [if_neg hE, if_neg hE]
            rfl
        · intro d
          simp only [mergeReportData, hfil₁, hfil₂, hdaily]
          by_cases hE : (assembleDaily (mergedDayMap [B, A])).labels.isEmpty = true
          · rw [if_pos hE, if_pos hE]
            rfl
          · rw [if_neg hE, if_neg hE]
            rfl

/-- Closed witness for C4: the singleton merge of the two-day fixture
reproduces its totals on a concrete day. -/
theorem claim_C4_witness :
    mergedTotals (mergeReportData [fixData]) "2026-02-01" =
      seriesAtD fixData.daily "2026-02-01" :=
  claim_C4.1 fixData (by decide) (by decide) "2026-02-01"

/-! ## C10: merged output well-formedness -/

/-- C10: any non-null merge result has strictly ascending labels, five
daily series of the same length as the labels, range fields equal to the
first label, the last label and the label count, and 24-element
`hourly_daily` entries. -/
theorem claim_C10 (datasets : List ReportData) (r : ReportData)
    (h : mergeReportData datasets = some r) :
    List.Sorted (· < ·) r.daily.labels ∧
    r.daily.total.length = r.daily.labels.length ∧
    r.daily.input.length = r.daily.labels.length ∧
    r.daily.output.length = r.daily.labels.length ∧
    r.daily.reasoning.length = r.daily.labels.length ∧
    r.daily.cached.length = r.daily.labels.length ∧
    (∃ hne : r.daily.labels ≠ [],
      r.range.start = r.daily.labels.head hne ∧
      r.range.end_ = r.daily.labels.getLast hne ∧
      r.range.days = r.daily.labels.length) ∧
    (∀ p ∈ r.hourly_daily, p.2.length = 24) := by
  obtain ⟨hdaily, hne, hrange, hhd⟩ := mergeReportData_some datasets r h
  have hnd : (keysOf (mergedDayMap
      (datasets.filter (fun item => !item.daily.labels.isEmpty)))).Nodup := by
    unfold mergedDayMap
    rw [foldl_mergeDayMap]
    exact nodup_keys_foldUpsert _ [] (by simp [keysOf])
  refine ⟨?_, ?_, ?_, ?_, ?_, ?_, ⟨hne, ?_, ?_, ?_⟩, ?_⟩
  · rw [hdaily, assembleDaily_labels]
    exact (List.sorted_insertionSort _ _).lt_of_le
      (((List.perm_insertionSort _ _).nodup_iff).mpr hnd)
  · rw [hdaily]
    simp [assembleDaily]
  · rw [hdaily]
    simp [assembleDaily]
  · rw [hdaily]
    simp [assembleDaily]
  · rw [hdaily]
    simp [assembleDaily]
  · rw [hdaily]
    simp [assembleDaily]
  · rw [hrange]
    exact headD_eq_head r.daily.labels hne ""
  · rw [hrange]
    exact getLastD_eq_getLast r.daily.labels hne ""
  · rw [hrange]
  · rw [hhd]
    exact foldl_mergeHourlyDaily_len _ [] (fun p hp => absurd hp (List.not_mem_nil p))

/-- Closed witness for C10: the merge of the two-day fixture is
well-formed. -/
theorem claim_C10_witness :
    List.Sorted (· < ·) ((mergeReportData [fixData]).getD emptyReport).daily.labels ∧
    (∀ p ∈ ((mergeReportData [fixData]).getD emptyReport).hourly_daily,
      p.2.length = 24) := by
  have hm : mergeReportData [fixData] =
      some ((mergeReportData [fixData]).getD emptyReport) := by
    cases hx : mergeReportData [fixData] with
    | none => exact absurd hx (merge_singleton_ne_none fixData (by decide))
    | some r => rfl
  exact ⟨(claim_C10 [fixData] _ hm).1,
    (claim_C10 [fixData] _ hm).2.2.2.2.2.2.2⟩

/-! ## C8: estimated cost nullability -/

theorem costUSD_none (rec : ModelTokenBreakdown) : costUSD rec none = none := rfl

theorem costFold_go (pricing : PricingBook) (l : List (String × ModelTokenBreakdown)) :
    ∀ (acc : ℚ × Bool),
      l.foldl
          (fun acc p =>
            match costUSD p.2 (resolvePricing p.1 pricing) with
            | some c => (acc.1 + c, true)
            | none => acc) acc =
        (acc.1 + (l.filterMap (fun p => costUSD p.2 (resolvePricing p.1 pricing))).sum,
         acc.2 || l.any (fun p => (resolvePricing p.1 pricing).isSome)) := by
  induction l with
  | nil => intro acc; simp
  | cons p rest ih =>
    intro acc
    rw [List.foldl_cons, List.filterMap_cons, List.any_cons]
    cases hr : resolvePricing p.1 pricing with
    | none =>
      simp only [costUSD_none, Option.isSome_none, Bool.false_or]
      exact ih acc
    | some e =>
      obtain ⟨c, hc⟩ : ∃ c, costUSD p.2 (some e) = some c := ⟨_, rfl⟩
      simp only [hc, Option.isSome_some, Bool.true_or, Bool.or_true]
      rw [ih, List.sum_cons]
      simp [add_assoc]

theorem costFold_spec (pricing : PricingBook)
    (l : List (String × ModelTokenBreakdown)) :
    costFold pricing l =
      ((l.filterMap (fun p => costUSD p.2 (resolvePricing p.1 pricing))).sum,
       l.any (fun p => (resolvePricing p.1 pricing).isSome)) := by
  unfold costFold
  rw [costFold_go]
  simp

/-- C8: on a non-empty view, `estimatedCost` is null exactly when no
aggregated model resolved to a price; when some model is priced it is
the sum of the priced models' costs; a model priced at zero rates gives
a cost of `some 0`, not null. -/
theorem claim_C8 :
    (∀ (data : ReportData) (view : RangedView), view.startIndex ≤ view.endIndex →
      ((computeStats data view).estimatedCost = none ↔
        ∀ p ∈ aggregateModels data view.labels, resolvePricing p.1 data.pricing = none) ∧
      ((∃ p ∈ aggregateModels data view.labels,
          (resolvePricing p.1 data.pricing).isSome = true) →
        (computeStats data view).estimatedCost =
          some (((aggregateModels data view.labels).filterMap
            (fun p => costUSD p.2 (resolvePricing p.1 data.pricing))).sum))) ∧
    (computeStats zeroRateData zeroRateView).estimatedCost = some 0 := by
  constructor
  · intro data view h
    have hlt : ¬(view.endIndex < view.startIndex) := not_lt.mpr h
    simp only [computeStats, if_neg hlt, costFold_spec]
    constructor
    · by_cases hb : (aggregateModels data view.labels).any
          (fun p => (resolvePricing p.1 data.pricing).isSome) = true
      · rw [if_pos hb]
        constructor
        · intro hsome
          exact (Option.some_ne_none _ hsome).elim
        · intro hall
          rcases List.any_eq_true.mp hb with ⟨p, hp, hps⟩
          rw [hall p hp] at hps
          simp at hps
      · rw [if_neg hb]
        refine ⟨fun _ p hp => ?_, fun _ => rfl⟩
        by_cases hres : (resolvePricing p.1 data.pricing).isSome = true
        · exact absurd (List.any_eq_true.mpr ⟨p, hp, hres⟩) hb
        · exact Option.not_isSome_iff_eq_none.mp hres
    · intro hex
      rw [if_pos (List.any_eq_true.mpr hex)]
  · have hlt : ¬(zeroRateView.endIndex < zeroRateView.startIndex) := by decide
    have hagg : aggregateModels zeroRateData zeroRateView.labels =
        [("m", addBreakdown zeroBreakdown ⟨1, 1, 1, 0, 3⟩)] := rfl
    have hres : resolvePricing "m" zeroRateData.pricing =
        some ⟨0, none, 0⟩ := by decide
    simp only [computeStats, if_neg hlt, costFold_spec, hagg]
    rw [List.filterMap_cons, List.any_cons]
    simp only [hres, costUSD, Option.isSome_some, Bool.true_or, if_true]
    rw [List.filterMap_nil, List.sum_cons, List.sum_nil]
    norm_num [addBreakdown, zeroBreakdown, jsMax]

/-- Closed witness for C8: the zero-rate fixture has a priced model, so
its cost is the (zero) sum rather than null. -/
theorem claim_C8_witness :
    ((computeStats zeroRateData zeroRateView).estimatedCost = none ↔
      ∀ p ∈ aggregateModels zeroRateData zeroRateView.labels,
        resolvePricing p.1 zeroRateData.pricing = none) ∧
    ((∃ p ∈ aggregateModels zeroRateData zeroRateView.labels,
        (resolvePricing p.1 zeroRateData.pricing).isSome = true) →
      (computeStats zeroRateData zeroRateView).estimatedCost =
        some (((aggregateModels zeroRateData zeroRateView.labels).filterMap
          (fun p => costUSD p.2 (resolvePricing p.1 zeroRateData.pricing))).sum)) :=
  claim_C8.1 zeroRateData zeroRateView (by decide)

end TokenAccount
